import Mathlib

/-!
Shallow embedding of the cannelloni UDP/CAN tunnel core (src/connection.cpp),
centred on the `UDPThread` datagram codec, aggregation buffers and frame pool.

The repository ships only `connection.cpp`; the companion header
`connection.h` (wire constants, the `UDPDataPacket` layout and the
`can_frame_comp` comparator) is not part of `src/`, so those pieces are
modelled from the specification and marked as such in their doc comments.
Everything else is translated directly from `connection.cpp`.
-/

/-- Modelled from the spec: wire-format version constant
`CANNELLONI_FRAME_VERSION` from the missing header `connection.h`
(spec section 6: current version 1). -/
def CANNELLONI_FRAME_VERSION : Nat := 1

/-- Modelled from the spec: the `DATA` op code from the missing header
`connection.h`; the only op code the core emits or accepts.  Its concrete
numeric value is immaterial to every claim (encoder and decoder share it);
we fix it to 0. -/
def DATA : Nat := 0

/-- Modelled from the spec: per-frame on-wire header size from the missing
header `connection.h` (spec section 6: 5 = 4-byte id + 1 length byte). -/
def CANNELLONI_FRAME_BASE_SIZE : Nat := 5

/-- Modelled from the spec: datagram header size from the missing header
`connection.h` (spec section 6: 5 bytes). -/
def UDP_DATA_PACKET_BASE_SIZE : Nat := 5

/-- Modelled from the spec: UDP payload ceiling from the missing header
`connection.h` (spec section 6: practical ceiling 1472). -/
def UDP_PAYLOAD_SIZE : Nat := 1472

/-- Modelled from the spec: initial pool size from the missing header
`connection.h` (spec section 6: e.g. 16). -/
def FRAME_POOL_SIZE : Nat := 16

/-- A SocketCAN `can_frame`: 32-bit identifier, payload length byte
`can_dlc`, and the payload bytes.  `data` holds the significant prefix of
the fixed 8-byte payload array; positions beyond `data.length` read as 0
(the receive path zero-initialises its storage). -/
structure can_frame where
  can_id : Nat
  can_dlc : Nat
  data : List Nat
deriving DecidableEq

/-- A valid CAN frame as the kernel delivers it: identifier fits 32 bits,
payload length at most 8, payload stored verbatim as bytes. -/
def can_frame.wf (f : can_frame) : Prop :=
  f.can_id < 2 ^ 32 ∧ f.can_dlc ≤ 8 ∧ f.data.length = f.can_dlc ∧ ∀ b ∈ f.data, b < 256

instance (f : can_frame) : Decidable f.wf := by
  unfold can_frame.wf; infer_instance

/-- Byte `i` of the zero-initialised receive buffer whose first
`buf.length` bytes are the received datagram (`run()` memsets the buffer
to 0 before `recvfrom`, connection.cpp:184). -/
def byteAt (buf : List Nat) (i : Nat) : Nat := buf.getD i 0

/-- `ntohl` of the four bytes starting at `off`: big-endian 32-bit read
(connection.cpp:232). -/
def be32At (buf : List Nat) (off : Nat) : Nat :=
  byteAt buf off * 16777216 + byteAt buf (off + 1) * 65536 +
    byteAt buf (off + 2) * 256 + byteAt buf (off + 3)

/-- `htonl`: the four big-endian bytes of a 32-bit value
(connection.cpp:341). -/
def be32 (n : Nat) : List Nat :=
  [n / 16777216 % 256, n / 65536 % 256, n / 256 % 256, n % 256]

/-- `memcpy` of `n` bytes starting at offset `off` out of the receive
buffer (connection.cpp:242). -/
def readBytes (buf : List Nat) (off n : Nat) : List Nat :=
  (List.range n).map (fun j => byteAt buf (off + j))

/-- The per-frame extraction loop of `UDPThread::run`
(connection.cpp:224-256).  Arguments: receive buffer, `receivedBytes`,
remaining loop count, current offset of `rawData` into the buffer.
Returns the frames pushed onto `canFrames` and whether the loop aborted
early on an incomplete record (the `error = true; break` paths at
connection.cpp:227 and 239). -/
def decodeFrames (buf : List Nat) (received : Nat) : Nat → Nat → List can_frame × Bool
  | 0, _ => ([], false)
  | count + 1, off =>
    if off + CANNELLONI_FRAME_BASE_SIZE > received then
      ([], true)
    else
      let id := be32At buf off
      let dlc := byteAt buf (off + 4)
      if off + CANNELLONI_FRAME_BASE_SIZE + dlc > received then
        ([], true)
      else
        let r := decodeFrames buf received count (off + CANNELLONI_FRAME_BASE_SIZE + dlc)
        (⟨id, dlc, readBytes buf (off + CANNELLONI_FRAME_BASE_SIZE) dlc⟩ :: r.1, r.2)

/-- Datagram handling of `UDPThread::run` after the source filter
(connection.cpp:198-258).  Header layout (version, op code, sequence
number, 16-bit big-endian count) is the packed `UDPDataPacket` of the
missing `connection.h`, modelled from spec section 4.1.  `none` means the
datagram is dropped (wrong version, wrong op code or zero count) and
`transmitCANFrames` is never called; `some (fs, err)` means
`transmitCANFrames` is called with exactly `fs`, where `err` records
whether the extraction loop aborted early. -/
def decodeDatagram (buf : List Nat) : Option (List can_frame × Bool) :=
  let count := byteAt buf 3 * 256 + byteAt buf 4
  if byteAt buf 0 ≠ CANNELLONI_FRAME_VERSION ∨ byteAt buf 1 ≠ DATA ∨ count = 0 then
    none
  else
    some (decodeFrames buf buf.length count UDP_DATA_PACKET_BASE_SIZE)

/-- Datagram header bytes as written by `UDPThread::transmitBuffer`
(connection.cpp:326-330 and 349-353): version, op code, sequence number
(low byte of the counter), `htons` of the frame count. -/
def mkHeader (seq cnt : Nat) : List Nat :=
  [CANNELLONI_FRAME_VERSION, DATA, seq % 256, cnt / 256 % 256, cnt % 256]

/-- The `can_dlc` payload bytes `memcpy`d out of the frame's fixed 8-byte
array (connection.cpp:345); bytes beyond the stored prefix read as 0. -/
def payloadBytes (f : can_frame) : List Nat :=
  (List.range f.can_dlc).map (fun j => f.data.getD j 0)

/-- One on-wire frame record as written by `UDPThread::transmitBuffer`
(connection.cpp:341-346): big-endian id, length byte, payload. -/
def encodeFrame (f : can_frame) : List Nat :=
  be32 f.can_id ++ [f.can_dlc % 256] ++ payloadBytes f

/-- Serialization state of `UDPThread::transmitBuffer`: datagrams already
sent, record bytes of the current datagram (everything past the header
area, so the `data` cursor sits at `UDP_DATA_PACKET_BASE_SIZE +
cur.length`), the running `frameCount`, and `m_sequenceNumber`. -/
structure TxState where
  datagrams : List (List Nat)
  cur : List Nat
  frameCount : Nat
  seq : Nat
deriving DecidableEq

/-- Sealing and sending the current datagram (connection.cpp:326-339,
349-360): write the header, transmit, bump the sequence counter, reset
the cursor and frame count. -/
def sealDatagram (t : TxState) : TxState :=
  { datagrams := t.datagrams ++ [mkHeader t.seq t.frameCount ++ t.cur],
    cur := [], frameCount := 0, seq := t.seq + 1 }

/-- Loop body of `UDPThread::transmitBuffer` (connection.cpp:322-348):
on overflow of the ceiling, seal and restart the datagram; then append the
frame record. -/
def txStep (t : TxState) (f : can_frame) : TxState :=
  let t1 :=
    if UDP_DATA_PACKET_BASE_SIZE + t.cur.length + CANNELLONI_FRAME_BASE_SIZE + f.can_dlc
        > UDP_PAYLOAD_SIZE then
      sealDatagram t
    else t
  { t1 with cur := t1.cur ++ encodeFrame f, frameCount := t1.frameCount + 1 }

/-- The serialization pass of `UDPThread::transmitBuffer`
(connection.cpp:321-360) over an already-sorted frame list: the loop over
the in-flight buffer followed by the final seal-and-send.  Returns the
emitted datagrams in order and the new sequence counter. -/
def serializeFrames (fs : List can_frame) (seq : Nat) : List (List Nat) × Nat :=
  let t := fs.foldl txStep ⟨[], [], 0, seq⟩
  ((sealDatagram t).datagrams, (sealDatagram t).seq)

/-- Per-frame on-wire size: `CANNELLONI_FRAME_BASE_SIZE + can_dlc`
(connection.cpp:290, 325). -/
def wireSize (f : can_frame) : Nat := CANNELLONI_FRAME_BASE_SIZE + f.can_dlc

/-- Total per-frame wire size of a frame list. -/
def wireSum (fs : List can_frame) : Nat := (fs.map wireSize).sum

/-- Lexicographic byte comparison, `memcmp` style: `memcmpLt a b` holds
when `a` is strictly lexicographically below `b`. -/
def memcmpLt : List Nat → List Nat → Bool
  | _, [] => false
  | [], _ :: _ => true
  | a :: as, b :: bs => if a < b then true else if b < a then false else memcmpLt as bs

/-- Modelled from the spec: the frame comparator `can_frame_comp` declared
in the missing header `connection.h` (spec section 3: ascending unsigned
numeric identifier, ties broken by length then lexicographic payload). -/
def can_frame_comp (a b : can_frame) : Bool :=
  if a.can_id < b.can_id then true
  else if b.can_id < a.can_id then false
  else if a.can_dlc < b.can_dlc then true
  else if b.can_dlc < a.can_dlc then false
  else memcmpLt a.data b.data

/-- The non-strict order induced by `can_frame_comp`: `a` need not come
after `b`. -/
def frame_le (a b : can_frame) : Bool := !(can_frame_comp b a)

/-- `m_frameBuffer_trans->sort(can_frame_comp())` (connection.cpp:319):
`std::list::sort` is a stable merge sort with the comparator. -/
def sortFrames (l : List can_frame) : List can_frame := l.mergeSort frame_le

/-- The mutable state of a `UDPThread` relevant to its buffers, pool and
sequence counter (connection.cpp:79-96 members).  The pool entries carry
no information until a frame is copied in, so the pool is modelled by its
size; `m_sequenceNumber` is modelled as an unbounded counter of which only
the low byte ever reaches the wire. -/
structure UDPState where
  framePool : Nat
  frameBuffer : List can_frame
  frameBufferSize : Nat
  frameBuffer_trans : List can_frame
  frameBufferSize_trans : Nat
  totalAllocCount : Nat
  sequenceNumber : Nat
deriving DecidableEq

/-- `UDPThread::resizePool` (connection.cpp:380-386): allocate `n` fresh
slots into the pool and grow the total allocation count. -/
def resizePool (s : UDPState) (n : Nat) : UDPState :=
  { s with framePool := s.framePool + n, totalAllocCount := s.totalAllocCount + n }

/-- `UDPThread::clearPool` (connection.cpp:388-394): free every pool slot
and reset the total allocation count.  Frames sitting in the buffers are
not touched. -/
def clearPool (s : UDPState) : UDPState :=
  { s with framePool := 0, totalAllocCount := 0 }

/-- `UDPThread::sendCANFrame` (connection.cpp:274-295): grow the pool by
the total allocation count if it is empty, copy the frame into the head
slot, splice that slot onto the buffer tail, add the frame's wire size to
`m_frameBufferSize`, and call `fireTimer` when the accumulated size plus
the datagram header reaches the payload ceiling.  The Bool reports whether
`fireTimer` was called. -/
def sendCANFrame (s : UDPState) (f : can_frame) : UDPState × Bool :=
  let s1 := if s.framePool = 0 then resizePool s s.totalAllocCount else s
  let s2 := { s1 with
    framePool := s1.framePool - 1,
    frameBuffer := s1.frameBuffer ++ [f],
    frameBufferSize := s1.frameBufferSize + (CANNELLONI_FRAME_BASE_SIZE + f.can_dlc) }
  (s2, decide (s2.frameBufferSize + UDP_DATA_PACKET_BASE_SIZE ≥ UDP_PAYLOAD_SIZE))

/-- `UDPThread::transmitBuffer` (connection.cpp:305-368): swap the live
and in-flight buffers and their size counters, sort the in-flight buffer
with the comparator, serialize and send it, merge the in-flight slots back
into the pool and zero the in-flight size.  Returns the datagrams sent. -/
def transmitBuffer (s : UDPState) : UDPState × List (List Nat) :=
  let inflight := s.frameBuffer
  let out := serializeFrames (sortFrames inflight) s.sequenceNumber
  ({ s with
      frameBuffer := s.frameBuffer_trans,
      frameBufferSize := s.frameBufferSize_trans,
      frameBuffer_trans := [],
      frameBufferSize_trans := 0,
      framePool := s.framePool + inflight.length,
      sequenceNumber := out.2 }, out.1)

/-- The `UDPThread` state right after construction (connection.cpp:79-96)
and the `resizePool(FRAME_POOL_SIZE)` at the top of `start()`
(connection.cpp:100), with initial pool size `n`. -/
def initState (n : Nat) : UDPState :=
  { framePool := n, frameBuffer := [], frameBufferSize := 0,
    frameBuffer_trans := [], frameBufferSize_trans := 0,
    totalAllocCount := n, sequenceNumber := 0 }

/-- One completed quiescent-point operation of the UDP worker:
`sendCANFrame`, `transmitBuffer` or `resizePool`. -/
inductive Step : UDPState → UDPState → Prop
  | send (f : can_frame) (s : UDPState) : Step s (sendCANFrame s f).1
  | transmit (s : UDPState) : Step s (transmitBuffer s).1
  | resize (n : Nat) (s : UDPState) : Step s (resizePool s n)

/-- As `Step`, with `clearPool` also allowed. -/
inductive StepC : UDPState → UDPState → Prop
  | send (f : can_frame) (s : UDPState) : StepC s (sendCANFrame s f).1
  | transmit (s : UDPState) : StepC s (transmitBuffer s).1
  | resize (n : Nat) (s : UDPState) : StepC s (resizePool s n)
  | clear (s : UDPState) : StepC s (clearPool s)

/-- Pool conservation: pool slots plus live-buffer slots plus in-flight
slots equal the total allocation count. -/
def conserved (s : UDPState) : Prop :=
  s.framePool + s.frameBuffer.length + s.frameBuffer_trans.length = s.totalAllocCount

/-- Wire-size accuracy of the live buffer: `m_frameBufferSize` equals the
summed wire sizes of the frames in `m_frameBuffer`. -/
def sizeAccurate (s : UDPState) : Prop :=
  s.frameBufferSize = wireSum s.frameBuffer

/-- The source-address fields of a `sockaddr_in` that `UDPThread::run`
inspects: `sin_addr` (the 4-byte IPv4 address compared by `memcmp`) and
`sin_port`. -/
structure sockaddr_in where
  sin_addr : Nat
  sin_port : Nat
deriving DecidableEq

/-- The receive path of `UDPThread::run` for one non-empty datagram
(connection.cpp:191-259): drop it (outer `none`) when the sender's
`sin_addr` differs from the configured remote's `sin_addr`
(connection.cpp:194), otherwise decode it. -/
def handleDatagram (clientAddr remoteAddr : sockaddr_in) (buf : List Nat) :
    Option (Option (List can_frame × Bool)) :=
  if clientAddr.sin_addr ≠ remoteAddr.sin_addr then none
  else some (decodeDatagram buf)

/-- Greedy grouping step mirroring the overflow test of the
`transmitBuffer` loop: seal the current group when the next frame would
push the datagram past the ceiling, else append to it. -/
def greedyStep (acc : List (List can_frame) × List can_frame) (f : can_frame) :
    List (List can_frame) × List can_frame :=
  if UDP_DATA_PACKET_BASE_SIZE + wireSum acc.2 + CANNELLONI_FRAME_BASE_SIZE + f.can_dlc
      > UDP_PAYLOAD_SIZE then
    (acc.1 ++ [acc.2], [f])
  else
    (acc.1, acc.2 ++ [f])

/-- The sealed groups and the trailing open group of the greedy fill. -/
def greedyGroups (fs : List can_frame) : List (List can_frame) × List can_frame :=
  fs.foldl greedyStep ([], [])

/-- All datagram groups of the greedy fill, trailing group included. -/
def allGroups (fs : List can_frame) : List (List can_frame) :=
  (greedyGroups fs).1 ++ [(greedyGroups fs).2]

/-- The datagram bytes carrying the frame group `g` with sequence number
`q`. -/
def mkDatagram (q : Nat) (g : List can_frame) : List Nat :=
  mkHeader q g.length ++ (g.map encodeFrame).flatten

/-- Datagram bytes for a list of groups, with consecutive sequence
numbers starting at `q`. -/
def mkDatagrams : Nat → List (List can_frame) → List (List Nat)
  | _, [] => []
  | q, g :: gs => mkDatagram q g :: mkDatagrams (q + 1) gs

/-- The two size counters each track the wire size of their buffer. -/
def sizeInv (s : UDPState) : Prop :=
  s.frameBufferSize = wireSum s.frameBuffer
    ∧ s.frameBufferSize_trans = wireSum s.frameBuffer_trans

/-- The datagrams emitted by a sequence of `transmitBuffer` serialization
passes, threading `m_sequenceNumber` from one call to the next (the
admissions between flushes never touch the counter). -/
def serializeCalls : Nat → List (List can_frame) → List (List Nat)
  | _, [] => []
  | q, b :: bs => (serializeFrames b q).1 ++ serializeCalls (serializeFrames b q).2 bs

theorem length_encodeFrame (f : can_frame) : (encodeFrame f).length = wireSize f := by
  simp [encodeFrame, be32, payloadBytes, wireSize, CANNELLONI_FRAME_BASE_SIZE]
  omega

theorem length_flatten_encode (l : List can_frame) :
    ((l.map encodeFrame).flatten).length = wireSum l := by
  induction l with
  | nil => simp [wireSum]
  | cons f l ih =>
    simp only [List.map_cons, List.flatten_cons, List.length_append, ih,
      length_encodeFrame, wireSum, List.map_cons, List.sum_cons]

theorem wireSum_append (l1 l2 : List can_frame) :
    wireSum (l1 ++ l2) = wireSum l1 + wireSum l2 := by
  simp [wireSum]

theorem mkDatagrams_append_single (gs : List (List can_frame)) (g : List can_frame) :
    ∀ q, mkDatagrams q (gs ++ [g]) = mkDatagrams q gs ++ [mkDatagram (q + gs.length) g] := by
  induction gs with
  | nil => intro q; simp [mkDatagrams]
  | cons g0 gs ih =>
    intro q
    simp only [List.cons_append, mkDatagrams, List.length_cons, List.append_eq]
    rw [ih (q + 1)]
    have h1 : q + 1 + gs.length = q + (gs.length + 1) := by omega
    rw [h1]

/-- Simulation of the `transmitBuffer` loop by the greedy grouping: the
byte-level fold is, up to assembling headers, the frame-level greedy
fold. -/
theorem foldl_txStep_sim (fs : List can_frame) :
    ∀ (gs : List (List can_frame)) (cur : List can_frame) (q : Nat),
      fs.foldl txStep
        ⟨mkDatagrams q gs, (cur.map encodeFrame).flatten, cur.length, q + gs.length⟩
      = ⟨mkDatagrams q (fs.foldl greedyStep (gs, cur)).1,
         ((fs.foldl greedyStep (gs, cur)).2.map encodeFrame).flatten,
         (fs.foldl greedyStep (gs, cur)).2.length,
         q + (fs.foldl greedyStep (gs, cur)).1.length⟩ := by
  induction fs with
  | nil => intro gs cur q; rfl
  | cons f fs ih =>
    intro gs cur q
    simp only [List.foldl_cons]
    by_cases hcond :
        UDP_DATA_PACKET_BASE_SIZE + wireSum cur + CANNELLONI_FRAME_BASE_SIZE + f.can_dlc
          > UDP_PAYLOAD_SIZE
    · have htx : txStep ⟨mkDatagrams q gs, (cur.map encodeFrame).flatten, cur.length,
          q + gs.length⟩ f
          = ⟨mkDatagrams q (gs ++ [cur]), ([f].map encodeFrame).flatten, [f].length,
             q + (gs ++ [cur]).length⟩ := by
        simp only [txStep, sealDatagram, length_flatten_encode, hcond, if_pos,
          mkDatagrams_append_single, mkDatagram, List.length_append, List.length_cons,
          List.length_nil, List.map_cons, List.map_nil, List.flatten_cons, List.flatten_nil,
          List.nil_append, List.append_nil, List.length_singleton, TxState.mk.injEq,
          true_and, and_true]
        omega
      have hg : greedyStep (gs, cur) f = (gs ++ [cur], [f]) := by
        simp only [greedyStep, hcond, if_pos]
      rw [htx, hg, ih]
    · have htx : txStep ⟨mkDatagrams q gs, (cur.map encodeFrame).flatten, cur.length,
          q + gs.length⟩ f
          = ⟨mkDatagrams q gs, ((cur ++ [f]).map encodeFrame).flatten, (cur ++ [f]).length,
             q + gs.length⟩ := by
        simp only [txStep, length_flatten_encode, hcond, if_neg, if_false,
          List.map_append, List.flatten_append, List.map_cons, List.map_nil,
          List.flatten_cons, List.flatten_nil, List.append_nil, List.length_append,
          List.length_cons, List.length_nil]
      have hg : greedyStep (gs, cur) f = (gs, cur ++ [f]) := by
        simp only [greedyStep, hcond, if_neg, if_false]
      rw [htx, hg, ih]

/-- `serializeFrames` emits exactly the datagrams of the greedy groups,
with consecutive sequence numbers, and advances the counter once per
datagram. -/
theorem serializeFrames_eq (fs : List can_frame) (q : Nat) :
    serializeFrames fs q = (mkDatagrams q (allGroups fs), q + (allGroups fs).length) := by
  have h := foldl_txStep_sim fs [] [] q
  simp only [mkDatagrams, List.map_nil, List.flatten_nil, List.length_nil,
    Nat.add_zero] at h
  simp only [serializeFrames, h, sealDatagram, allGroups, greedyGroups,
    mkDatagrams_append_single, mkDatagram, Prod.mk.injEq, List.length_append,
    List.length_cons, List.length_nil]
  exact ⟨trivial, by omega⟩

theorem wireSum_nil : wireSum [] = 0 := rfl

theorem wireSum_cons (f : can_frame) (fs : List can_frame) :
    wireSum (f :: fs) = (CANNELLONI_FRAME_BASE_SIZE + f.can_dlc) + wireSum fs := by
  simp [wireSum, wireSize]

/-- The greedy groups concatenate back to the input: no frame is split,
duplicated or dropped. -/
theorem greedy_flatten (fs : List can_frame) :
    ∀ (gs : List (List can_frame)) (cur : List can_frame),
      ((fs.foldl greedyStep (gs, cur)).1).flatten ++ (fs.foldl greedyStep (gs, cur)).2
        = gs.flatten ++ cur ++ fs := by
  induction fs with
  | nil => intro gs cur; simp
  | cons f fs ih =>
    intro gs cur
    simp only [List.foldl_cons]
    by_cases hcond :
        UDP_DATA_PACKET_BASE_SIZE + wireSum cur + CANNELLONI_FRAME_BASE_SIZE + f.can_dlc
          > UDP_PAYLOAD_SIZE
    · rw [show greedyStep (gs, cur) f = (gs ++ [cur], [f]) by
        simp [greedyStep, hcond]]
      rw [ih]
      simp [List.append_assoc]
    · rw [show greedyStep (gs, cur) f = (gs, cur ++ [f]) by
        simp [greedyStep, hcond]]
      rw [ih]
      simp [List.append_assoc]

/-- While the whole remaining input still fits the ceiling, the greedy
fill never seals: everything joins the current group. -/
theorem greedy_no_seal (fs : List can_frame) :
    ∀ (cur : List can_frame) (gs : List (List can_frame)),
      UDP_DATA_PACKET_BASE_SIZE + wireSum cur + wireSum fs ≤ UDP_PAYLOAD_SIZE →
      fs.foldl greedyStep (gs, cur) = (gs, cur ++ fs) := by
  induction fs with
  | nil => intro cur gs _; simp
  | cons f fs ih =>
    intro cur gs h
    have hw := wireSum_cons f fs
    have hcond :
        ¬ (UDP_DATA_PACKET_BASE_SIZE + wireSum cur + CANNELLONI_FRAME_BASE_SIZE + f.can_dlc
          > UDP_PAYLOAD_SIZE) := by omega
    simp only [List.foldl_cons]
    rw [show greedyStep (gs, cur) f = (gs, cur ++ [f]) by
      simp [greedyStep, hcond]]
    rw [ih (cur ++ [f]) gs (by
      rw [wireSum_append]
      have h1 := wireSum_cons f []
      rw [wireSum_nil] at h1
      omega)]
    simp

/-- The sealed-group list only ever grows: the starting `gs` stays a
prefix of the result. -/
theorem greedy_fst_prefix (fs : List can_frame) :
    ∀ (gs : List (List can_frame)) (cur : List can_frame),
      ∃ t, (fs.foldl greedyStep (gs, cur)).1 = gs ++ t := by
  induction fs with
  | nil => intro gs cur; exact ⟨[], by simp⟩
  | cons f fs ih =>
    intro gs cur
    simp only [List.foldl_cons]
    by_cases hcond :
        UDP_DATA_PACKET_BASE_SIZE + wireSum cur + CANNELLONI_FRAME_BASE_SIZE + f.can_dlc
          > UDP_PAYLOAD_SIZE
    · rw [show greedyStep (gs, cur) f = (gs ++ [cur], [f]) by
        simp [greedyStep, hcond]]
      obtain ⟨t, ht⟩ := ih (gs ++ [cur]) [f]
      exact ⟨[cur] ++ t, by rw [ht, List.append_assoc]⟩
    · rw [show greedyStep (gs, cur) f = (gs, cur ++ [f]) by
        simp [greedyStep, hcond]]
      exact ih gs (cur ++ [f])

/-- If the greedy fill never sealed, the open group respects the
ceiling. -/
theorem greedy_nil_bound (fs : List can_frame) :
    ∀ (cur : List can_frame) (gs : List (List can_frame)),
      UDP_DATA_PACKET_BASE_SIZE + wireSum cur ≤ UDP_PAYLOAD_SIZE →
      (fs.foldl greedyStep (gs, cur)).1 = [] →
      UDP_DATA_PACKET_BASE_SIZE + wireSum ((fs.foldl greedyStep (gs, cur)).2)
        ≤ UDP_PAYLOAD_SIZE := by
  induction fs with
  | nil => intro cur gs h _; simpa using h
  | cons f fs ih =>
    intro cur gs h hnil
    simp only [List.foldl_cons] at hnil ⊢
    by_cases hcond :
        UDP_DATA_PACKET_BASE_SIZE + wireSum cur + CANNELLONI_FRAME_BASE_SIZE + f.can_dlc
          > UDP_PAYLOAD_SIZE
    · rw [show greedyStep (gs, cur) f = (gs ++ [cur], [f]) by
        simp [greedyStep, hcond]] at hnil
      obtain ⟨t, ht⟩ := greedy_fst_prefix fs (gs ++ [cur]) [f]
      rw [ht] at hnil
      simp at hnil
    · rw [show greedyStep (gs, cur) f = (gs, cur ++ [f]) by
        simp [greedyStep, hcond]] at hnil ⊢
      refine ih (cur ++ [f]) gs ?_ hnil
      rw [wireSum_append]
      have h1 := wireSum_cons f []
      rw [wireSum_nil] at h1
      omega

/-- A batch that fits under the ceiling forms a single greedy group. -/
theorem allGroups_single (fs : List can_frame)
    (h : UDP_DATA_PACKET_BASE_SIZE + wireSum fs ≤ UDP_PAYLOAD_SIZE) :
    allGroups fs = [fs] := by
  have h0 : UDP_DATA_PACKET_BASE_SIZE + wireSum ([] : List can_frame) + wireSum fs
      ≤ UDP_PAYLOAD_SIZE := by simpa [wireSum_nil] using h
  simp [allGroups, greedyGroups, greedy_no_seal fs [] [] h0]

/-- The greedy groups concatenate to the input batch. -/
theorem allGroups_flatten (fs : List can_frame) : (allGroups fs).flatten = fs := by
  have h := greedy_flatten fs [] []
  simp only [List.flatten_nil, List.nil_append] at h
  simp [allGroups, greedyGroups, List.flatten_append, h]

/-- A batch at least one byte past the exact-fit boundary needs at least
two greedy groups. -/
theorem allGroups_two (fs : List can_frame)
    (h : UDP_PAYLOAD_SIZE - UDP_DATA_PACKET_BASE_SIZE + 1 ≤ wireSum fs) :
    2 ≤ (allGroups fs).length := by
  by_contra hlt
  have hlen : (greedyGroups fs).1.length = 0 := by
    simp only [allGroups, List.length_append, List.length_cons, List.length_nil] at hlt
    omega
  have hnil : (greedyGroups fs).1 = [] := List.length_eq_zero.mp hlen
  have hbound := greedy_nil_bound fs [] []
    (by simp [wireSum_nil, UDP_DATA_PACKET_BASE_SIZE, UDP_PAYLOAD_SIZE]) hnil
  have hfl := greedy_flatten fs [] []
  simp only [greedyGroups] at hnil hbound
  rw [hnil] at hfl
  simp only [List.flatten_nil, List.nil_append] at hfl
  rw [hfl] at hbound
  simp only [UDP_PAYLOAD_SIZE, UDP_DATA_PACKET_BASE_SIZE] at h hbound
  omega

/-- Number of datagrams built from a group list. -/
theorem length_mkDatagrams (gs : List (List can_frame)) :
    ∀ q, (mkDatagrams q gs).length = gs.length := by
  induction gs with
  | nil => intro q; rfl
  | cons g gs ih => intro q; simp [mkDatagrams, ih]

theorem byteAt_append (pre xs : List Nat) (i : Nat) :
    byteAt (pre ++ xs) (pre.length + i) = byteAt xs i := by
  unfold byteAt
  rw [List.getD_append_right pre xs 0 (pre.length + i) (Nat.le_add_right _ _),
    Nat.add_sub_cancel_left]

theorem byteAt_append_left (pre xs : List Nat) (i : Nat) (h : i < pre.length) :
    byteAt (pre ++ xs) i = byteAt pre i := by
  unfold byteAt
  rw [List.getD_append _ _ _ _ h]

theorem length_be32 (n : Nat) : (be32 n).length = 4 := rfl

theorem be32At_be32 (n : Nat) (hn : n < 2 ^ 32) (pre post : List Nat) :
    be32At (pre ++ (be32 n ++ post)) pre.length = n := by
  have h0 := byteAt_append pre (be32 n ++ post) 0
  have h1 := byteAt_append pre (be32 n ++ post) 1
  have h2 := byteAt_append pre (be32 n ++ post) 2
  have h3 := byteAt_append pre (be32 n ++ post) 3
  rw [Nat.add_zero] at h0
  have e0 : byteAt (be32 n ++ post) 0 = n / 16777216 % 256 := rfl
  have e1 : byteAt (be32 n ++ post) 1 = n / 65536 % 256 := rfl
  have e2 : byteAt (be32 n ++ post) 2 = n / 256 % 256 := rfl
  have e3 : byteAt (be32 n ++ post) 3 = n % 256 := rfl
  have hp : (2 : Nat) ^ 32 = 4294967296 := by norm_num
  rw [hp] at hn
  simp only [be32At, h0, h1, h2, h3, e0, e1, e2, e3]
  omega

theorem payloadBytes_wf (f : can_frame) (h : f.data.length = f.can_dlc) :
    payloadBytes f = f.data := by
  apply List.ext_getElem
  · simp [payloadBytes, h]
  · intro i h1 h2
    simp only [payloadBytes, List.getElem_map, List.getElem_range]
    exact List.getD_eq_getElem f.data 0 h2

/-- One iteration of the extraction loop over a buffer carrying an
encoded record of the well-formed frame `f` at the current offset:
the loop reads back exactly `f` and advances past the record. -/
theorem decodeFrames_step (buf : List Nat) (f : can_frame) (hwf : f.wf)
    (pre post : List Nat) (hbuf : buf = pre ++ (encodeFrame f ++ post)) (count : Nat) :
    decodeFrames buf buf.length (count + 1) pre.length
      = (f :: (decodeFrames buf buf.length count (pre.length + wireSize f)).1,
         (decodeFrames buf buf.length count (pre.length + wireSize f)).2) := by
  obtain ⟨hid32, hdlc8, hdlen, _⟩ := hwf
  have hL : buf.length = pre.length + (5 + f.can_dlc) + post.length := by
    rw [hbuf]
    simp only [List.length_append, length_encodeFrame, wireSize, CANNELLONI_FRAME_BASE_SIZE]
    omega
  have hid_eq : be32At buf pre.length = f.can_id := by
    rw [hbuf, show encodeFrame f ++ post
        = be32 f.can_id ++ ([f.can_dlc % 256] ++ (payloadBytes f ++ post)) by
      simp [encodeFrame, List.append_assoc]]
    exact be32At_be32 f.can_id hid32 pre _
  have hdlc_eq : byteAt buf (pre.length + 4) = f.can_dlc := by
    rw [hbuf, show pre ++ (encodeFrame f ++ post)
        = (pre ++ be32 f.can_id) ++ ([f.can_dlc % 256] ++ (payloadBytes f ++ post)) by
      simp [encodeFrame, List.append_assoc]]
    have h4 := byteAt_append (pre ++ be32 f.can_id)
      ([f.can_dlc % 256] ++ (payloadBytes f ++ post)) 0
    rw [Nat.add_zero] at h4
    rw [show pre.length + 4 = (pre ++ be32 f.can_id).length by
      simp [length_be32]]
    rw [h4]
    show f.can_dlc % 256 = f.can_dlc
    exact Nat.mod_eq_of_lt (by omega)
  have hplen : (payloadBytes f).length = f.can_dlc := by simp [payloadBytes]
  have hdata : readBytes buf (pre.length + CANNELLONI_FRAME_BASE_SIZE) f.can_dlc
      = f.data := by
    rw [← payloadBytes_wf f hdlen]
    unfold readBytes payloadBytes
    apply List.map_congr_left
    intro j hj
    rw [List.mem_range] at hj
    rw [hbuf, show pre ++ (encodeFrame f ++ post)
        = (pre ++ (be32 f.can_id ++ [f.can_dlc % 256])) ++ (payloadBytes f ++ post) by
      simp [encodeFrame, List.append_assoc]]
    have h5 : (pre ++ (be32 f.can_id ++ [f.can_dlc % 256])).length = pre.length + 5 := by
      simp [length_be32]
    have h6 := byteAt_append (pre ++ (be32 f.can_id ++ [f.can_dlc % 256]))
      (payloadBytes f ++ post) j
    rw [h5] at h6
    rw [show pre.length + CANNELLONI_FRAME_BASE_SIZE + j = pre.length + 5 + j from rfl]
    rw [h6]
    rw [byteAt_append_left _ _ _ (by rw [hplen]; exact hj)]
    unfold byteAt
    rw [List.getD_eq_getElem (payloadBytes f) 0 (by rw [hplen]; exact hj)]
    simp [payloadBytes]
  have hc1 : ¬ (pre.length + CANNELLONI_FRAME_BASE_SIZE > buf.length) := by
    simp only [CANNELLONI_FRAME_BASE_SIZE]
    omega
  simp only [decodeFrames]
  rw [if_neg hc1, hdlc_eq, hid_eq]
  have hc2 : ¬ (pre.length + CANNELLONI_FRAME_BASE_SIZE + f.can_dlc > buf.length) := by
    simp only [CANNELLONI_FRAME_BASE_SIZE]
    omega
  rw [if_neg hc2, hdata]
  rw [show pre.length + CANNELLONI_FRAME_BASE_SIZE + f.can_dlc = pre.length + wireSize f by
    simp only [wireSize]; omega]

/-- The extraction loop over a buffer that carries the encodings of the
well-formed frames `fs` starting at the current offset recovers exactly
`fs` and then continues, with `k` loop iterations left, right behind the
encoded region. -/
theorem decodeFrames_encoded (fs : List can_frame) :
    ∀ (buf pre rest : List Nat) (k : Nat),
      buf = pre ++ ((fs.map encodeFrame).flatten ++ rest) →
      (∀ f ∈ fs, f.wf) →
      decodeFrames buf buf.length (fs.length + k) pre.length
        = (fs ++ (decodeFrames buf buf.length k (pre.length + wireSum fs)).1,
           (decodeFrames buf buf.length k (pre.length + wireSum fs)).2) := by
  induction fs with
  | nil =>
    intro buf pre rest k _ _
    simp [wireSum_nil]
  | cons f fs ih =>
    intro buf pre rest k hbuf hwf
    have hbuf1 : buf = pre ++ (encodeFrame f ++ ((fs.map encodeFrame).flatten ++ rest)) := by
      rw [hbuf]
      simp [List.append_assoc]
    have hbuf2 : buf = (pre ++ encodeFrame f) ++ ((fs.map encodeFrame).flatten ++ rest) := by
      rw [hbuf1, List.append_assoc]
    rw [show (f :: fs).length + k = (fs.length + k) + 1 by
      simp only [List.length_cons]; omega]
    rw [decodeFrames_step buf f (hwf f (by simp)) pre _ hbuf1 (fs.length + k)]
    have hlen : pre.length + wireSize f = (pre ++ encodeFrame f).length := by
      simp [length_encodeFrame]
    rw [hlen]
    rw [ih buf (pre ++ encodeFrame f) rest k hbuf2 (fun g hg => hwf g (by simp [hg]))]
    rw [show (pre ++ encodeFrame f).length + wireSum fs = pre.length + wireSum (f :: fs) by
      rw [wireSum_cons]
      simp [length_encodeFrame, wireSize]
      omega]
    simp

theorem decodeFrames_zero (buf : List Nat) (received off : Nat) :
    decodeFrames buf received 0 off = ([], false) := rfl

theorem length_mkHeader (q c : Nat) : (mkHeader q c).length = 5 := rfl

/-- Decoding the single datagram carrying the nonempty well-formed frame
list `fs` recovers exactly `fs`, without touching the error path. -/
theorem decode_mkDatagram (fs : List can_frame) (q : Nat) (hne : fs ≠ [])
    (hwf : ∀ f ∈ fs, f.wf) (hlen : fs.length < 65536) :
    decodeDatagram (mkDatagram q fs) = some (fs, false) := by
  have hbuf : mkDatagram q fs
      = mkHeader q fs.length ++ ((fs.map encodeFrame).flatten ++ []) := by
    simp [mkDatagram]
  have hv : byteAt (mkDatagram q fs) 0 = CANNELLONI_FRAME_VERSION := by
    simp only [mkDatagram]
    rw [byteAt_append_left _ _ 0 (by simp [mkHeader])]
    rfl
  have ho : byteAt (mkDatagram q fs) 1 = DATA := by
    simp only [mkDatagram]
    rw [byteAt_append_left _ _ 1 (by simp [mkHeader])]
    rfl
  have h3 : byteAt (mkDatagram q fs) 3 = fs.length / 256 % 256 := by
    simp only [mkDatagram]
    rw [byteAt_append_left _ _ 3 (by simp [mkHeader])]
    rfl
  have h4 : byteAt (mkDatagram q fs) 4 = fs.length % 256 := by
    simp only [mkDatagram]
    rw [byteAt_append_left _ _ 4 (by simp [mkHeader])]
    rfl
  have hcnt : byteAt (mkDatagram q fs) 3 * 256 + byteAt (mkDatagram q fs) 4
      = fs.length := by
    rw [h3, h4]
    omega
  have hne0 : fs.length ≠ 0 := fun h0 => hne (List.length_eq_zero.mp h0)
  have hdec := decodeFrames_encoded fs (mkDatagram q fs) (mkHeader q fs.length) [] 0
    hbuf hwf
  simp only [decodeFrames_zero, Nat.add_zero, List.append_nil, length_mkHeader] at hdec
  simp only [decodeDatagram, hv, ho, hcnt]
  rw [if_neg (by simp [hne0])]
  rw [show UDP_DATA_PACKET_BASE_SIZE = 5 from rfl]
  rw [hdec]

theorem five_mul_length_le_wireSum (fs : List can_frame) :
    5 * fs.length ≤ wireSum fs := by
  induction fs with
  | nil => simp [wireSum_nil]
  | cons f fs ih =>
    rw [wireSum_cons]
    simp only [List.length_cons, CANNELLONI_FRAME_BASE_SIZE]
    omega

/-- C3 (amended: the frame sequence must be nonempty; the decoder treats
a zero-count datagram as an error and drops it rather than yielding the
empty sequence): for every nonempty finite sequence of valid CAN frames
whose total wire size fits in one datagram, the serializer of
`transmitBuffer` emits exactly one datagram, and decoding that datagram
yields exactly the original sequence of frames, in order, with no
error. -/
theorem roundtrip_single_datagram (fs : List can_frame) (q : Nat) (hne : fs ≠ [])
    (hwf : ∀ f ∈ fs, f.wf)
    (hfit : UDP_DATA_PACKET_BASE_SIZE + wireSum fs ≤ UDP_PAYLOAD_SIZE) :
    (serializeFrames fs q).1 = [mkDatagram q fs]
      ∧ decodeDatagram (mkDatagram q fs) = some (fs, false) := by
  constructor
  · rw [serializeFrames_eq, allGroups_single fs hfit]
    rfl
  · refine decode_mkDatagram fs q hne hwf ?_
    have h5 := five_mul_length_le_wireSum fs
    simp only [UDP_DATA_PACKET_BASE_SIZE, UDP_PAYLOAD_SIZE] at hfit
    omega

/-- Witness for the round-trip at the spec's S1 frame
(`can_id` 0x123, payload DE AD). -/
theorem roundtrip_single_datagram_w :
    (serializeFrames [⟨291, 2, [222, 173]⟩] 0).1 = [mkDatagram 0 [⟨291, 2, [222, 173]⟩]]
      ∧ decodeDatagram (mkDatagram 0 [⟨291, 2, [222, 173]⟩])
          = some ([⟨291, 2, [222, 173]⟩], false) :=
  roundtrip_single_datagram [⟨291, 2, [222, 173]⟩] 0 (by decide) (by decide) (by decide)

/-- C3, as stated for arbitrary (possibly empty) sequences, is false: the
encoder maps the empty batch to a single zero-count datagram, and the
decoder drops that datagram as an error (`Received empty packet`,
connection.cpp:212-215) instead of yielding the empty sequence. -/
theorem roundtrip_empty_cex :
    ¬ (∀ (fs : List can_frame) (q : Nat), (∀ f ∈ fs, f.wf) →
        UDP_DATA_PACKET_BASE_SIZE + wireSum fs ≤ UDP_PAYLOAD_SIZE →
        ∃ d, (serializeFrames fs q).1 = [d]
          ∧ (decodeDatagram d).map Prod.fst = some fs) := by
  intro h
  obtain ⟨d, hd, hdec⟩ := h [] 0 (by simp) (by decide)
  have hcomp : (serializeFrames ([] : List can_frame) 0).1 = [[1, 0, 0, 0, 0]] := by decide
  rw [hcomp] at hd
  have hd1 : d = [1, 0, 0, 0, 0] := by
    simpa using hd.symm
  rw [hd1] at hdec
  have hnone : decodeDatagram [1, 0, 0, 0, 0] = none := by decide
  rw [hnone] at hdec
  simp at hdec

/-- C1 (amended: the frames already extracted are NOT discarded): when a
datagram passes the header checks but a per-frame record would read past
the received length, the extraction loop stops at the failing record, yet
the frames already extracted are still handed to the CAN Worker via
`transmitCANFrames` (connection.cpp:257 runs after the `break`), and the
worker continues.  Here the datagram announces `c` frames but carries the
well-formed frames `fs` followed by fewer bytes than one record header. -/
theorem decode_error_delivers_extracted_frames (fs : List can_frame) (q c : Nat)
    (extra : List Nat) (hwf : ∀ f ∈ fs, f.wf)
    (hextra : extra.length < CANNELLONI_FRAME_BASE_SIZE)
    (hcgt : fs.length < c) (hc16 : c < 65536) :
    decodeDatagram (mkHeader q c ++ ((fs.map encodeFrame).flatten ++ extra))
      = some (fs, true) := by
  set buf := mkHeader q c ++ ((fs.map encodeFrame).flatten ++ extra) with hbufdef
  have hv : byteAt buf 0 = CANNELLONI_FRAME_VERSION := by
    rw [hbufdef, byteAt_append_left _ _ 0 (by simp [mkHeader])]
    rfl
  have ho : byteAt buf 1 = DATA := by
    rw [hbufdef, byteAt_append_left _ _ 1 (by simp [mkHeader])]
    rfl
  have h3 : byteAt buf 3 = c / 256 % 256 := by
    rw [hbufdef, byteAt_append_left _ _ 3 (by simp [mkHeader])]
    rfl
  have h4 : byteAt buf 4 = c % 256 := by
    rw [hbufdef, byteAt_append_left _ _ 4 (by simp [mkHeader])]
    rfl
  have hcnt : byteAt buf 3 * 256 + byteAt buf 4 = c := by
    rw [h3, h4]
    omega
  have hbl : buf.length = 5 + (wireSum fs + extra.length) := by
    rw [hbufdef]
    simp only [List.length_append, length_mkHeader, length_flatten_encode]
  have hdec := decodeFrames_encoded fs buf (mkHeader q c) extra (c - fs.length)
    hbufdef hwf
  have hcc : fs.length + (c - fs.length) = c := by omega
  rw [hcc, length_mkHeader] at hdec
  have hr : decodeFrames buf buf.length (c - fs.length) (5 + wireSum fs) = ([], true) := by
    obtain ⟨k, hk⟩ : ∃ k, c - fs.length = k + 1 := ⟨c - fs.length - 1, by omega⟩
    rw [hk]
    simp only [decodeFrames]
    rw [if_pos (by
      simp only [CANNELLONI_FRAME_BASE_SIZE]
      simp only [CANNELLONI_FRAME_BASE_SIZE] at hextra
      omega)]
  rw [hr] at hdec
  simp only [List.append_nil] at hdec
  simp only [decodeDatagram, hv, ho, hcnt]
  rw [if_neg (by simp; omega)]
  rw [show UDP_DATA_PACKET_BASE_SIZE = 5 from rfl]
  rw [hdec]

/-- Witness: a datagram announcing two frames but carrying one complete
record and a four-byte stub delivers the first frame together with the
error flag. -/
theorem decode_error_delivers_extracted_frames_w :
    decodeDatagram (mkHeader 0 2 ++ (([⟨1, 1, [170]⟩] : List can_frame).map encodeFrame).flatten
        ++ [0, 0, 0, 0])
      = some ([⟨1, 1, [170]⟩], true) := by
  have h := decode_error_delivers_extracted_frames [⟨1, 1, [170]⟩] 0 2 [0, 0, 0, 0]
    (by decide) (by decide) (by decide) (by decide)
  simpa [List.append_assoc] using h

/-- C1, as stated, is false: on a decode error partway through a datagram
the frames already extracted are not discarded — the concrete datagram
`01 00 00 00 02 | 00 00 00 01 01 AA | 00 00 00 00` fails at its second
record, yet `transmitCANFrames` receives the first frame. -/
theorem decode_error_frames_not_discarded_cex :
    ¬ (∀ (buf : List Nat) (out : List can_frame × Bool),
        decodeDatagram buf = some out → out.2 = true → out.1 = []) := by
  intro h
  have hd : decodeDatagram [1, 0, 0, 0, 2, 0, 0, 0, 1, 1, 170, 0, 0, 0, 0]
      = some ([⟨1, 1, [170]⟩], true) := by decide
  have h1 := h _ _ hd rfl
  simp at h1

/-- C2: the decoder never validates the payload-length byte against the
CAN maximum of 8: the well-formed-looking datagram
`01 00 00 00 01 | 00 00 00 05 09 01..09` whose single record advertises 9
payload bytes (all present) is accepted, producing a frame with
`can_dlc = 9 > 8` rather than being rejected. -/
theorem decoder_accepts_dlc_gt8 :
    decodeDatagram [1, 0, 0, 0, 1, 0, 0, 0, 5, 9, 1, 2, 3, 4, 5, 6, 7, 8, 9]
      = some ([⟨5, 9, [1, 2, 3, 4, 5, 6, 7, 8, 9]⟩], false)
      ∧ 8 < (can_frame.mk 5 9 [1, 2, 3, 4, 5, 6, 7, 8, 9]).can_dlc := by
  decide

theorem step_conserved {s s2 : UDPState} (h : Step s s2)
    (hc : conserved s) (hp : 0 < s.totalAllocCount) :
    conserved s2 ∧ 0 < s2.totalAllocCount := by
  cases h with
  | send f s =>
    by_cases h0 : s.framePool = 0 <;>
      simp only [conserved, sendCANFrame, resizePool, h0, if_pos, if_neg, if_true, if_false,
        List.length_append, List.length_cons, List.length_nil] at hc ⊢ <;>
      omega
  | transmit s =>
    simp only [conserved, transmitBuffer, List.length_nil] at hc ⊢
    omega
  | resize n s =>
    simp only [conserved, resizePool] at hc ⊢
    omega

/-- C4 (amended: `clearPool` excluded — `clearPool` frees the pool and
resets the total allocation count but leaves the frames sitting in the
live and in-flight buffers unaccounted, so conservation fails right after
it whenever a buffer is non-empty): at every quiescent point reachable
through completed `sendCANFrame`, `transmitBuffer` and `resizePool` calls
from the started worker, the pool size plus the live-buffer size plus the
in-flight-buffer size equals the total allocation count. -/
theorem pool_conservation (n : Nat) (s : UDPState) (hn : 0 < n)
    (hr : Relation.ReflTransGen Step (initState n) s) : conserved s := by
  have h : conserved s ∧ 0 < s.totalAllocCount := by
    induction hr with
    | refl => exact ⟨by simp [conserved, initState], by simpa [initState] using hn⟩
    | tail hab hbc ih => exact step_conserved hbc ih.1 ih.2
  exact h.1

/-- Witness: conservation after one admitted frame from the freshly
started worker. -/
theorem pool_conservation_w :
    conserved (sendCANFrame (initState 16) ⟨291, 2, [222, 173]⟩).1 :=
  pool_conservation 16 _ (by decide)
    (Relation.ReflTransGen.single (Step.send ⟨291, 2, [222, 173]⟩ (initState 16)))

/-- C4, as stated, is false once `clearPool` is included among the
quiescent operations: starting the worker, admitting one frame and then
calling `clearPool` leaves one frame in the live buffer while the total
allocation count is 0. -/
theorem pool_conservation_clearPool_cex :
    ¬ (∀ (n : Nat) (s : UDPState), 0 < n →
        Relation.ReflTransGen StepC (initState n) s → conserved s) := by
  intro h
  have hr : Relation.ReflTransGen StepC (initState 16)
      (clearPool (sendCANFrame (initState 16) ⟨0, 0, []⟩).1) :=
    Relation.ReflTransGen.tail
      (Relation.ReflTransGen.single (StepC.send ⟨0, 0, []⟩ (initState 16)))
      (StepC.clear _)
  have hc := h 16 _ (by decide) hr
  have hfalse : ¬ conserved (clearPool (sendCANFrame (initState 16) ⟨0, 0, []⟩).1) := by
    unfold conserved
    decide
  exact hfalse hc

theorem stepC_sizeInv {s s2 : UDPState} (h : StepC s s2) (hi : sizeInv s) : sizeInv s2 := by
  obtain ⟨hi1, hi2⟩ := hi
  cases h with
  | send f s =>
    constructor
    · by_cases h0 : s.framePool = 0 <;>
        simp only [sendCANFrame, resizePool, h0, if_pos, if_neg, if_true, if_false] <;>
        rw [wireSum_append] <;>
        have hx := wireSum_cons f [] <;>
        rw [wireSum_nil] at hx <;>
        omega
    · by_cases h0 : s.framePool = 0 <;>
        simp only [sendCANFrame, resizePool, h0, if_pos, if_neg, if_true, if_false] <;>
        exact hi2
  | transmit s =>
    exact ⟨by simpa [transmitBuffer] using hi2, by simp [transmitBuffer, wireSum_nil]⟩
  | resize n s =>
    exact ⟨hi1, hi2⟩
  | clear s =>
    exact ⟨hi1, hi2⟩

/-- C5: after every completed operation (admissions, flushes, pool
operations included), the live accumulated wire-size counter
`m_frameBufferSize` equals the sum of `CANNELLONI_FRAME_BASE_SIZE +
can_dlc` over the frames currently in the live buffer. -/
theorem wire_size_accuracy (n : Nat) (s : UDPState)
    (hr : Relation.ReflTransGen StepC (initState n) s) : sizeAccurate s := by
  have h : sizeInv s := by
    induction hr with
    | refl => exact ⟨rfl, rfl⟩
    | tail hab hbc ih => exact stepC_sizeInv hbc ih
  exact h.1

/-- Witness: wire-size accuracy after one admission and one flush. -/
theorem wire_size_accuracy_w :
    sizeAccurate (transmitBuffer (sendCANFrame (initState 16) ⟨291, 2, [222, 173]⟩).1).1 :=
  wire_size_accuracy 16 _
    (Relation.ReflTransGen.tail
      (Relation.ReflTransGen.single (StepC.send ⟨291, 2, [222, 173]⟩ (initState 16)))
      (StepC.transmit _))

/-- C6: `sendCANFrame` re-arms the timer to fire immediately exactly when
the accumulated wire size, after the admitted frame's
`CANNELLONI_FRAME_BASE_SIZE + can_dlc` has been added, plus
`UDP_DATA_PACKET_BASE_SIZE` reaches `UDP_PAYLOAD_SIZE`
(connection.cpp:290-293). -/
theorem fireTimer_iff_threshold (s : UDPState) (f : can_frame) :
    ((sendCANFrame s f).2 = true ↔
      UDP_PAYLOAD_SIZE ≤ (sendCANFrame s f).1.frameBufferSize + UDP_DATA_PACKET_BASE_SIZE)
    ∧ (sendCANFrame s f).1.frameBufferSize
        = s.frameBufferSize + (CANNELLONI_FRAME_BASE_SIZE + f.can_dlc) := by
  by_cases h0 : s.framePool = 0 <;>
    constructor <;>
    simp [sendCANFrame, resizePool, h0, ge_iff_le]

/-- C7: the exact-fit boundary.  A batch whose total per-frame wire size
is exactly `UDP_PAYLOAD_SIZE - UDP_DATA_PACKET_BASE_SIZE` is emitted as
exactly one datagram; a batch at least one byte past that boundary is
emitted as at least two datagrams; and in every case the datagrams are
the greedy groups of the batch — whole frames, concatenating back to the
batch, so no frame is ever split across datagrams. -/
theorem exact_fit_boundary (fs : List can_frame) (q : Nat) :
    (wireSum fs = UDP_PAYLOAD_SIZE - UDP_DATA_PACKET_BASE_SIZE →
      (serializeFrames fs q).1.length = 1)
    ∧ (UDP_PAYLOAD_SIZE - UDP_DATA_PACKET_BASE_SIZE + 1 ≤ wireSum fs →
      2 ≤ (serializeFrames fs q).1.length)
    ∧ (serializeFrames fs q).1 = mkDatagrams q (allGroups fs)
    ∧ (allGroups fs).flatten = fs := by
  refine ⟨?_, ?_, ?_, allGroups_flatten fs⟩
  · intro h
    rw [serializeFrames_eq, allGroups_single fs (by
      simp only [UDP_PAYLOAD_SIZE, UDP_DATA_PACKET_BASE_SIZE] at h ⊢
      omega)]
    rfl
  · intro h
    rw [serializeFrames_eq]
    show 2 ≤ (mkDatagrams q (allGroups fs)).length
    rw [length_mkDatagrams]
    exact allGroups_two fs h
  · rw [serializeFrames_eq]

theorem wireSum_replicate (n : Nat) (f : can_frame) :
    wireSum (List.replicate n f) = n * wireSize f := by
  induction n with
  | zero => simp [wireSum_nil]
  | succ n ih =>
    rw [List.replicate_succ, wireSum_cons, ih]
    simp only [wireSize]
    ring

/-- Witness for the boundary: 163 frames of wire size 9 total exactly
1467 bytes and fit one datagram; trading one for a 10-byte frame adds one
byte and forces two datagrams. -/
theorem exact_fit_boundary_w :
    (serializeFrames (List.replicate 163 ⟨0, 4, [0, 0, 0, 0]⟩) 0).1.length = 1
      ∧ 2 ≤ (serializeFrames
          (⟨0, 5, [0, 0, 0, 0, 0]⟩ :: List.replicate 162 ⟨0, 4, [0, 0, 0, 0]⟩) 0).1.length :=
  ⟨(exact_fit_boundary (List.replicate 163 ⟨0, 4, [0, 0, 0, 0]⟩) 0).1
      (by rw [wireSum_replicate]; decide),
   (exact_fit_boundary
      (⟨0, 5, [0, 0, 0, 0, 0]⟩ :: List.replicate 162 ⟨0, 4, [0, 0, 0, 0]⟩) 0).2.1
      (by rw [wireSum_cons, wireSum_replicate]; decide)⟩

theorem mkDatagrams_append (gs1 gs2 : List (List can_frame)) :
    ∀ q, mkDatagrams q (gs1 ++ gs2)
      = mkDatagrams q gs1 ++ mkDatagrams (q + gs1.length) gs2 := by
  induction gs1 with
  | nil => intro q; simp [mkDatagrams]
  | cons g gs ih =>
    intro q
    simp only [List.cons_append, mkDatagrams, List.length_cons, List.append_eq]
    rw [ih (q + 1), show q + 1 + gs.length = q + (gs.length + 1) by omega]

theorem serializeCalls_eq (bs : List (List can_frame)) :
    ∀ q, serializeCalls q bs = mkDatagrams q ((bs.map allGroups).flatten) := by
  induction bs with
  | nil => intro q; rfl
  | cons b bs ih =>
    intro q
    simp only [serializeCalls, List.map_cons, List.flatten_cons]
    rw [serializeFrames_eq, ih, mkDatagrams_append]

theorem seqByte_mkDatagrams (gs : List (List can_frame)) :
    ∀ q i, i < gs.length →
      byteAt ((mkDatagrams q gs).getD i []) 2 = (q + i) % 256 := by
  induction gs with
  | nil => intro q i h; simp at h
  | cons g gs ih =>
    intro q i h
    cases i with
    | zero =>
      show byteAt (mkDatagram q g) 2 = (q + 0) % 256
      rw [Nat.add_zero]
      simp only [mkDatagram]
      rw [byteAt_append_left _ _ 2 (by simp [mkHeader])]
      rfl
    | succ i =>
      have h2 : i < gs.length := by
        simp only [List.length_cons] at h
        omega
      show byteAt ((mkDatagrams (q + 1) gs).getD i []) 2 = (q + (i + 1)) % 256
      rw [ih (q + 1) i h2]
      congr 1
      omega

/-- C8: the sequence-number bytes of successive datagrams emitted by the
UDP worker — within and across `transmitBuffer` calls threading the
counter — differ by exactly 1 modulo 256, and each `transmitBuffer` call
consumes exactly one counter increment per emitted datagram. -/
theorem sequence_monotonicity (q : Nat) (batches : List (List can_frame)) :
    (∀ i, i + 1 < (serializeCalls q batches).length →
      byteAt ((serializeCalls q batches).getD (i + 1) []) 2
        = (byteAt ((serializeCalls q batches).getD i []) 2 + 1) % 256)
    ∧ (∀ s : UDPState,
        (transmitBuffer s).2 = (serializeFrames (sortFrames s.frameBuffer) s.sequenceNumber).1
        ∧ (transmitBuffer s).1.sequenceNumber
            = s.sequenceNumber + ((transmitBuffer s).2).length) := by
  constructor
  · intro i h
    rw [serializeCalls_eq] at h ⊢
    rw [length_mkDatagrams] at h
    rw [seqByte_mkDatagrams _ q (i + 1) h, seqByte_mkDatagrams _ q i (by omega)]
    omega
  · intro s
    refine ⟨rfl, ?_⟩
    show (serializeFrames (sortFrames s.frameBuffer) s.sequenceNumber).2
        = s.sequenceNumber
          + ((serializeFrames (sortFrames s.frameBuffer) s.sequenceNumber).1).length
    rw [serializeFrames_eq]
    simp [length_mkDatagrams]

/-- Witness: two one-batch flushes emit two datagrams whose sequence
bytes differ by one. -/
theorem sequence_monotonicity_w :
    byteAt ((serializeCalls 0 [[⟨1, 1, [7]⟩], [⟨2, 0, []⟩]]).getD 1 []) 2
      = (byteAt ((serializeCalls 0 [[⟨1, 1, [7]⟩], [⟨2, 0, []⟩]]).getD 0 []) 2 + 1) % 256 :=
  (sequence_monotonicity 0 [[⟨1, 1, [7]⟩], [⟨2, 0, []⟩]]).1 0 (by decide)

theorem memcmpLt_irrefl (a : List Nat) : memcmpLt a a = false := by
  induction a with
  | nil => rfl
  | cons x xs ih => simp [memcmpLt, Nat.lt_irrefl, ih]

theorem memcmpLt_trans : ∀ (a b c : List Nat), memcmpLt a b = true →
    memcmpLt b c = true → memcmpLt a c = true
  | [], _ :: _, _ :: _, _, _ => rfl
  | [], [], _, hab, _ => by simp [memcmpLt] at hab
  | _, _ :: _, [], _, hbc => by simp [memcmpLt] at hbc
  | _ :: _, [], _, hab, _ => by simp [memcmpLt] at hab
  | x :: xs, y :: ys, z :: zs, hab, hbc => by
    simp only [memcmpLt] at hab hbc ⊢
    by_cases hxy : x < y
    · by_cases hyz : y < z
      · rw [if_pos (by omega)]
      · by_cases hzy : z < y
        · rw [if_pos hzy, if_neg hyz] at hbc
          exact absurd hbc (by simp)
        · rw [if_neg hyz, if_neg hzy] at hbc
          have hyzeq : y = z := by omega
          rw [if_pos (by omega)]
    · rw [if_neg hxy] at hab
      by_cases hyx : y < x
      · rw [if_pos hyx] at hab
        exact absurd hab (by simp)
      · rw [if_neg hyx] at hab
        have hxyeq : x = y := by omega
        by_cases hyz : y < z
        · rw [if_pos (by omega)]
        · by_cases hzy : z < y
          · rw [if_pos hzy, if_neg hyz] at hbc
            exact absurd hbc (by simp)
          · rw [if_neg hyz, if_neg hzy] at hbc
            rw [if_neg (by omega), if_neg (by omega)]
            exact memcmpLt_trans xs ys zs hab hbc

theorem memcmpLt_eq : ∀ (a b : List Nat), memcmpLt a b = false →
    memcmpLt b a = false → a = b
  | [], [], _, _ => rfl
  | [], _ :: _, hab, _ => by simp [memcmpLt] at hab
  | _ :: _, [], _, hba => by simp [memcmpLt] at hba
  | x :: xs, y :: ys, hab, hba => by
    simp only [memcmpLt] at hab hba
    by_cases hxy : x < y
    · rw [if_pos hxy] at hab
      exact absurd hab (by simp)
    · by_cases hyx : y < x
      · rw [if_pos hyx] at hba
        exact absurd hba (by simp)
      · rw [if_neg hxy, if_neg hyx] at hab
        rw [if_neg hyx, if_neg hxy] at hba
        have hxyeq : x = y := by omega
        rw [hxyeq, memcmpLt_eq xs ys hab hba]

/-- Characterisation of the comparator as a lexicographic strict order on
(identifier, length, payload). -/
theorem can_frame_comp_iff (a b : can_frame) :
    can_frame_comp a b = true ↔
      a.can_id < b.can_id
      ∨ (a.can_id = b.can_id ∧ (a.can_dlc < b.can_dlc
          ∨ (a.can_dlc = b.can_dlc ∧ memcmpLt a.data b.data = true))) := by
  unfold can_frame_comp
  split_ifs with h1 h2 h3 h4
  · exact ⟨fun _ => Or.inl h1, fun _ => rfl⟩
  · constructor
    · intro h
      exact absurd h (by simp)
    · intro h
      rcases h with h | ⟨he, _⟩ <;> omega
  · exact ⟨fun _ => Or.inr ⟨by omega, Or.inl h3⟩, fun _ => rfl⟩
  · constructor
    · intro h
      exact absurd h (by simp)
    · intro h
      rcases h with h | ⟨he, h | ⟨hd, _⟩⟩ <;> omega
  · constructor
    · intro h
      exact Or.inr ⟨by omega, Or.inr ⟨by omega, h⟩⟩
    · intro h
      rcases h with h | ⟨he, h | ⟨hd, hm⟩⟩
      · omega
      · omega
      · exact hm

theorem can_frame_comp_trans (a b c : can_frame) (hab : can_frame_comp a b = true)
    (hbc : can_frame_comp b c = true) : can_frame_comp a c = true := by
  rw [can_frame_comp_iff] at hab hbc ⊢
  rcases hab with h | ⟨he1, hd1⟩ <;> rcases hbc with h2 | ⟨he2, hd2⟩
  · exact Or.inl (by omega)
  · exact Or.inl (by omega)
  · exact Or.inl (by omega)
  · refine Or.inr ⟨by omega, ?_⟩
    rcases hd1 with hdl | ⟨hde, hm⟩ <;> rcases hd2 with hdl2 | ⟨hde2, hm2⟩
    · exact Or.inl (by omega)
    · exact Or.inl (by omega)
    · exact Or.inl (by omega)
    · exact Or.inr ⟨by omega, memcmpLt_trans _ _ _ hm hm2⟩

theorem can_frame_comp_eq (a b : can_frame) (hab : can_frame_comp a b = false)
    (hba : can_frame_comp b a = false) : a = b := by
  have h1 : ¬ (can_frame_comp a b = true) := by simp [hab]
  have h2 : ¬ (can_frame_comp b a = true) := by simp [hba]
  have hid : a.can_id = b.can_id := by
    by_contra hne
    rcases Nat.lt_or_ge a.can_id b.can_id with h | h
    · exact h1 ((can_frame_comp_iff a b).mpr (Or.inl h))
    · exact h2 ((can_frame_comp_iff b a).mpr (Or.inl (by omega)))
  have hdlc : a.can_dlc = b.can_dlc := by
    by_contra hne
    rcases Nat.lt_or_ge a.can_dlc b.can_dlc with h | h
    · exact h1 ((can_frame_comp_iff a b).mpr (Or.inr ⟨hid, Or.inl h⟩))
    · exact h2 ((can_frame_comp_iff b a).mpr (Or.inr ⟨hid.symm, Or.inl (by omega)⟩))
  have hdata : a.data = b.data := by
    apply memcmpLt_eq
    · cases hx : memcmpLt a.data b.data
      · rfl
      · exact absurd ((can_frame_comp_iff a b).mpr
          (Or.inr ⟨hid, Or.inr ⟨hdlc, hx⟩⟩)) h1
    · cases hx : memcmpLt b.data a.data
      · rfl
      · exact absurd ((can_frame_comp_iff b a).mpr
          (Or.inr ⟨hid.symm, Or.inr ⟨hdlc.symm, hx⟩⟩)) h2
  calc a = ⟨a.can_id, a.can_dlc, a.data⟩ := rfl
    _ = ⟨b.can_id, b.can_dlc, b.data⟩ := by rw [hid, hdlc, hdata]
    _ = b := rfl

theorem can_frame_comp_irrefl (a : can_frame) : can_frame_comp a a = false := by
  unfold can_frame_comp
  simp [Nat.lt_irrefl, memcmpLt_irrefl]

theorem frame_le_total (a b : can_frame) : (frame_le a b || frame_le b a) = true := by
  cases hab : can_frame_comp b a
  · simp [frame_le, hab]
  · have hba : can_frame_comp a b = false := by
      cases hx : can_frame_comp a b
      · rfl
      · have := can_frame_comp_trans b a b hab hx
        rw [can_frame_comp_irrefl] at this
        exact absurd this (by simp)
    simp [frame_le, hab, hba]

theorem frame_le_trans (a b c : can_frame) (h1 : frame_le a b = true)
    (h2 : frame_le b c = true) : frame_le a c = true := by
  simp only [frame_le, Bool.not_eq_true'] at h1 h2 ⊢
  cases hca : can_frame_comp c a
  · rfl
  · cases hab : can_frame_comp a b
    · have heq : a = b := can_frame_comp_eq a b hab h1
      rw [heq] at hca
      rw [hca] at h2
      exact absurd h2 (by simp)
    · have := can_frame_comp_trans c a b hca hab
      rw [h2] at this
      exact absurd this (by simp)

/-- C9: every flush serializes the in-flight buffer in the order produced
by `std::list::sort` with `can_frame_comp` (connection.cpp:319), and that
order is sorted by the declared comparator — ascending unsigned 32-bit
identifier, ties broken by payload length, then by lexicographic payload
comparison — while keeping exactly the buffered frames (a permutation). -/
theorem flush_sorted_by_comparator (s : UDPState) :
    (transmitBuffer s).2
        = (serializeFrames (sortFrames s.frameBuffer) s.sequenceNumber).1
      ∧ (sortFrames s.frameBuffer).Pairwise (fun a b => can_frame_comp b a = false)
      ∧ (sortFrames s.frameBuffer).Perm s.frameBuffer := by
  refine ⟨rfl, ?_, List.mergeSort_perm s.frameBuffer frame_le⟩
  have hs := List.sorted_mergeSort frame_le_trans frame_le_total s.frameBuffer
  refine List.Pairwise.imp ?_ hs
  intro a b hab
  simpa [frame_le, Bool.not_eq_true'] using hab

/-- C10: the source filter of `UDPThread::run` compares only the IPv4
address (`memcmp` over `sin_addr`, connection.cpp:194): a datagram is
dropped as coming from an unexpected source exactly when the sender's
address differs from the configured remote address, the sender's port is
irrelevant, and a datagram from the remote address is decoded. -/
theorem source_filter_ip_only (c r : sockaddr_in) (buf : List Nat) :
    (handleDatagram c r buf = none ↔ c.sin_addr ≠ r.sin_addr)
    ∧ (∀ p, handleDatagram ⟨c.sin_addr, p⟩ r buf = handleDatagram c r buf)
    ∧ (c.sin_addr = r.sin_addr → handleDatagram c r buf = some (decodeDatagram buf)) := by
  refine ⟨?_, ?_, ?_⟩
  · unfold handleDatagram
    by_cases h : c.sin_addr = r.sin_addr
    · simp [h]
    · simp [h]
  · intro p
    rfl
  · intro h
    unfold handleDatagram
    simp [h]

/-- Witness: same address with a different port is accepted and decoded;
a different address is dropped. -/
theorem source_filter_ip_only_w :
    handleDatagram ⟨167772161, 9999⟩ ⟨167772161, 2000⟩ [] = some (decodeDatagram [])
      ∧ handleDatagram ⟨167772162, 2000⟩ ⟨167772161, 2000⟩ [] = none :=
  ⟨(source_filter_ip_only ⟨167772161, 9999⟩ ⟨167772161, 2000⟩ []).2.2 rfl,
   (source_filter_ip_only ⟨167772162, 2000⟩ ⟨167772161, 2000⟩ []).1.mpr (by decide)⟩

/-- Witness: an admission filling the buffer to 13 wire bytes does not
reach the ceiling, and the counter advances by exactly the frame's wire
size. -/
theorem fireTimer_iff_threshold_w :
    ((sendCANFrame (initState 16) (can_frame.mk 0 8 [1, 2, 3, 4, 5, 6, 7, 8])).2 = true ↔
      UDP_PAYLOAD_SIZE ≤
        (sendCANFrame (initState 16) (can_frame.mk 0 8 [1, 2, 3, 4, 5, 6, 7, 8])).1.frameBufferSize
          + UDP_DATA_PACKET_BASE_SIZE)
    ∧ (sendCANFrame (initState 16) (can_frame.mk 0 8 [1, 2, 3, 4, 5, 6, 7, 8])).1.frameBufferSize
        = (initState 16).frameBufferSize
          + (CANNELLONI_FRAME_BASE_SIZE + (can_frame.mk 0 8 [1, 2, 3, 4, 5, 6, 7, 8]).can_dlc) :=
  fireTimer_iff_threshold (initState 16) (can_frame.mk 0 8 [1, 2, 3, 4, 5, 6, 7, 8])

/-- Witness: a flush of a two-frame buffer in reversed identifier order
emits the comparator-sorted permutation. -/
theorem flush_sorted_by_comparator_w :
    (transmitBuffer (UDPState.mk 14 [can_frame.mk 2 0 [], can_frame.mk 1 0 []] 10 [] 0 16 0)).2
        = (serializeFrames (sortFrames [can_frame.mk 2 0 [], can_frame.mk 1 0 []]) 0).1
      ∧ (sortFrames [can_frame.mk 2 0 [], can_frame.mk 1 0 []]).Pairwise
          (fun a b => can_frame_comp b a = false)
      ∧ (sortFrames [can_frame.mk 2 0 [], can_frame.mk 1 0 []]).Perm
          [can_frame.mk 2 0 [], can_frame.mk 1 0 []] :=
  flush_sorted_by_comparator (UDPState.mk 14 [can_frame.mk 2 0 [], can_frame.mk 1 0 []] 10 [] 0 16 0)
